import Mathlib

/-!
# Verification of the refactool cache subsystem

Shallow embedding of the cache code of the repository:

* `src/api/src/cache/lru_cache.py` — class `LRUCache` (memory-bounded,
  versioned, TTL-aware LRU cache);
* `src/src/cache/lru_tracker.py` — `track_access` / `evict_oldest`
  (remote-tier fractional eviction);
* `src/api/src/cache/cluster.py` — `get_slot_distribution` and class
  `RedisCluster` (remote store client);
* `src/api/src/tasks.py` — `get_cache_key` / `invalidar_projeto`
  (namespace-scoped invalidation).

Python dicts / `OrderedDict`s are modelled as association lists
`List (String × β)` in insertion order (head = least recently inserted,
tail = most recently inserted); dict assignment updates the first matching
pair in place and appends when the key is absent, exactly like a Python
dict.  `time.time()` is modelled by an explicit `now : Nat` argument
passed to each operation, and `sys.getsizeof` by an abstract size
function `sz : V → Nat` over an abstract value type `V`.
-/

namespace Refactool

/-! ## Association-list primitives (Python dict model) -/

/-- First value stored under `k` (Python `d[k]` / `k in d`). -/
def lookupKey {β : Type} : List (String × β) → String → Option β
  | [], _ => none
  | (k, v) :: rest, key => if k = key then some v else lookupKey rest key

/-- Remove the first pair keyed `k` (Python `d.pop(k)`); dict keys are
unique, so at most one pair is ever removed on states reachable from an
empty dict. -/
def eraseKey {β : Type} : List (String × β) → String → List (String × β)
  | [], _ => []
  | (k, v) :: rest, key => if k = key then rest else (k, v) :: eraseKey rest key

/-- Python dict assignment `d[k] = v`: update in place if present, append
otherwise. -/
def setKey {β : Type} : List (String × β) → String → β → List (String × β)
  | [], key, val => [(key, val)]
  | (k, v) :: rest, key, val =>
      if k = key then (k, val) :: rest else (k, v) :: setKey rest key val

/-- The keys of an association list, in order. -/
def keysOf {β : Type} (l : List (String × β)) : List String := l.map Prod.fst

@[simp] theorem lookupKey_nil {β : Type} (k : String) :
    lookupKey ([] : List (String × β)) k = none := rfl

@[simp] theorem eraseKey_nil {β : Type} (k : String) :
    eraseKey ([] : List (String × β)) k = [] := rfl

@[simp] theorem setKey_nil {β : Type} (k : String) (v : β) :
    setKey ([] : List (String × β)) k v = [(k, v)] := rfl

@[simp] theorem keysOf_nil {β : Type} : keysOf ([] : List (String × β)) = [] := rfl

@[simp] theorem keysOf_cons {β : Type} (p : String × β) (l : List (String × β)) :
    keysOf (p :: l) = p.1 :: keysOf l := rfl

@[simp] theorem keysOf_append {β : Type} (l l' : List (String × β)) :
    keysOf (l ++ l') = keysOf l ++ keysOf l' := by
  simp [keysOf]

theorem mem_keysOf_iff {β : Type} {l : List (String × β)} {k : String} :
    k ∈ keysOf l ↔ ∃ v, (k, v) ∈ l := by
  induction l with
  | nil => simp [keysOf]
  | cons p rest ih =>
      obtain ⟨k', v'⟩ := p
      simp only [keysOf_cons, List.mem_cons, ih]
      constructor
      · rintro (rfl | ⟨v, hv⟩)
        · exact ⟨v', Or.inl rfl⟩
        · exact ⟨v, Or.inr hv⟩
      · rintro ⟨v, (h | h)⟩
        · exact Or.inl (by cases h; rfl)
        · exact Or.inr ⟨v, h⟩

theorem lookupKey_isSome_iff_mem {β : Type} {l : List (String × β)} {k : String} :
    (lookupKey l k).isSome ↔ k ∈ keysOf l := by
  induction l with
  | nil => simp [lookupKey, keysOf]
  | cons p rest ih =>
      obtain ⟨k', v'⟩ := p
      by_cases h : k' = k
      · subst h; simp [lookupKey, keysOf]
      · simp [lookupKey, h, keysOf, ih, Ne.symm h]

theorem lookupKey_eq_none_iff {β : Type} {l : List (String × β)} {k : String} :
    lookupKey l k = none ↔ k ∉ keysOf l := by
  rw [← lookupKey_isSome_iff_mem]
  cases lookupKey l k <;> simp

/-- `eraseKey` only drops pairs: the keys of the result form a sublist. -/
theorem keysOf_eraseKey_sublist {β : Type} (l : List (String × β)) (k : String) :
    List.Sublist (keysOf (eraseKey l k)) (keysOf l) := by
  induction l with
  | nil => simp [eraseKey]
  | cons p rest ih =>
      obtain ⟨k', v'⟩ := p
      by_cases h : k' = k
      · simpa [eraseKey, h] using (List.sublist_cons_self k' (keysOf rest))
      · simpa [eraseKey, h] using ih.cons₂ k'

theorem not_mem_keysOf_eraseKey {β : Type} {l : List (String × β)} {k k' : String}
    (h : k ∉ keysOf l) : k ∉ keysOf (eraseKey l k') :=
  fun hc => h ((keysOf_eraseKey_sublist l k').mem hc)

theorem mem_keysOf_eraseKey_of_ne {β : Type} {l : List (String × β)} {k k' : String}
    (hne : k ≠ k') (h : k ∈ keysOf l) : k ∈ keysOf (eraseKey l k') := by
  induction l with
  | nil => simpa [keysOf] using h
  | cons p rest ih =>
      obtain ⟨k₀, v₀⟩ := p
      by_cases h0 : k₀ = k'
      · subst h0
        rcases (by simpa using h : k = k₀ ∨ k ∈ keysOf rest) with h1 | h1
        · exact absurd h1 hne
        · simpa [eraseKey] using h1
      · rcases (by simpa using h : k = k₀ ∨ k ∈ keysOf rest) with h1 | h1
        · subst h1; simp [eraseKey, h0]
        · simp [eraseKey, h0, ih h1]

/-- Erasing a key under key-uniqueness really removes it. -/
theorem not_mem_keysOf_eraseKey_self {β : Type} {l : List (String × β)} {k : String}
    (hnd : (keysOf l).Nodup) : k ∉ keysOf (eraseKey l k) := by
  induction l with
  | nil => simp [eraseKey, keysOf]
  | cons p rest ih =>
      obtain ⟨k', v'⟩ := p
      simp only [keysOf_cons, List.nodup_cons] at hnd
      by_cases h : k' = k
      · subst h
        simpa [eraseKey] using hnd.1
      · intro hc
        rcases (by simpa [eraseKey, h] using hc : k = k' ∨ k ∈ keysOf (eraseKey rest k)) with
          h1 | h1
        · exact h h1.symm
        · exact ih hnd.2 h1

theorem keysOf_setKey {β : Type} (l : List (String × β)) (k : String) (v : β) :
    keysOf (setKey l k v) = if k ∈ keysOf l then keysOf l else keysOf l ++ [k] := by
  induction l with
  | nil => simp [setKey, keysOf]
  | cons p rest ih =>
      obtain ⟨k', v'⟩ := p
      by_cases h : k' = k
      · subst h; simp [setKey, keysOf]
      · by_cases hm : k ∈ keysOf rest
        · simp [setKey, h, ih, hm, Ne.symm h]
        · simp [setKey, h, ih, hm, Ne.symm h]

theorem nodup_keysOf_eraseKey {β : Type} {l : List (String × β)} {k : String}
    (hnd : (keysOf l).Nodup) : (keysOf (eraseKey l k)).Nodup :=
  (keysOf_eraseKey_sublist l k).nodup hnd

theorem nodup_keysOf_setKey {β : Type} {l : List (String × β)} {k : String} {v : β}
    (hnd : (keysOf l).Nodup) : (keysOf (setKey l k v)).Nodup := by
  rw [keysOf_setKey]
  by_cases h : k ∈ keysOf l
  · simpa [h] using hnd
  · simp only [h, if_false]
    rw [List.nodup_append]
    refine ⟨hnd, List.nodup_singleton k, ?_⟩
    intro a ha hb
    rw [List.mem_singleton] at hb
    subst hb
    exact h ha

theorem mem_keysOf_setKey_of_mem {β : Type} {l : List (String × β)} {k k' : String} {v : β}
    (h : k ∈ keysOf l) : k ∈ keysOf (setKey l k' v) := by
  rw [keysOf_setKey]
  by_cases h' : k' ∈ keysOf l <;> simp [h', h]

theorem mem_keysOf_setKey_iff {β : Type} {l : List (String × β)} {k k' : String} {v : β} :
    k ∈ keysOf (setKey l k' v) ↔ k ∈ keysOf l ∨ k = k' := by
  rw [keysOf_setKey]
  by_cases h' : k' ∈ keysOf l
  · simp only [h', if_true]
    constructor
    · exact Or.inl
    · rintro (h | rfl)
      · exact h
      · exact h'
  · simp [h']

theorem lookupKey_setKey_self {β : Type} (l : List (String × β)) (k : String) (v : β) :
    lookupKey (setKey l k v) k = some v := by
  induction l with
  | nil => simp [setKey, lookupKey]
  | cons p rest ih =>
      obtain ⟨k', v'⟩ := p
      by_cases h : k' = k
      · subst h; simp [setKey, lookupKey]
      · simp [setKey, lookupKey, h, ih]

theorem lookupKey_append_right {β : Type} {l : List (String × β)} (l' : List (String × β))
    {k : String} (h : k ∉ keysOf l) : lookupKey (l ++ l') k = lookupKey l' k := by
  induction l with
  | nil => simp
  | cons p rest ih =>
      obtain ⟨k', v'⟩ := p
      simp only [keysOf_cons, List.mem_cons] at h
      push_neg at h
      simpa [lookupKey, Ne.symm h.1] using ih h.2

/-! ## `LRUCache` (src/api/src/cache/lru_cache.py)

State of one `LRUCache` instance.  `cache` models the `OrderedDict`
(head = least recently used, tail = most recently used), `timeouts` the
expiration-timestamp dict.  `memory_usage` is a Python `int`, so it is
modelled as `Int`.  `default_timeout : Nat` models the constructor
argument, with `0` standing for both Python `None` and `0` (both falsy in
the `elif self.default_timeout:` test). -/

structure LRUCache (V : Type) where
  max_memory : Nat
  cache : List (String × V)
  memory_usage : Int
  version : Nat
  default_timeout : Nat
  timeouts : List (String × Nat)

namespace LRUCache

/-- `LRUCache.__init__`: `max_memory = max_memory_mb * 1024 * 1024`, empty
structures. -/
def init (V : Type) (max_memory_mb version default_timeout : Nat) : LRUCache V :=
  { max_memory := max_memory_mb * 1024 * 1024
    cache := []
    memory_usage := 0
    version := version
    default_timeout := default_timeout
    timeouts := [] }

/-- `_get_versioned_key`: `f"v{self.version}:{key}"`. -/
def versionedKey (version : Nat) (key : String) : String :=
  "v" ++ toString version ++ ":" ++ key

variable {V : Type}

/-- `_get_versioned_key` on a state. -/
def get_versioned_key (s : LRUCache V) (key : String) : String :=
  versionedKey s.version key

/-- `_is_expired`: `time.time() > self.timeouts[key]` when the key has a
timeout, `False` otherwise. -/
def is_expired (s : LRUCache V) (now : Nat) (key : String) : Bool :=
  match lookupKey s.timeouts key with
  | some t => decide (now > t)
  | none => false

/-- `_remove_item`: if the key is in the cache, pop it, subtract its
estimated size, and drop its timeout.  Note the guard: when the key is
*not* in the cache, nothing happens — in particular a timeout whose key
is absent from the cache is not removed. -/
def remove_item (sz : V → Nat) (s : LRUCache V) (key : String) : LRUCache V :=
  match lookupKey s.cache key with
  | some v =>
      { s with
        cache := eraseKey s.cache key
        memory_usage := s.memory_usage - (sz v : Int)
        timeouts := eraseKey s.timeouts key }
  | none => s

/-- `_cleanup_expired`: snapshot the expired keys of `timeouts`, then
`_remove_item` each. -/
def cleanup_expired (sz : V → Nat) (s : LRUCache V) (now : Nat) : LRUCache V :=
  ((s.timeouts.filter (fun kt => decide (now > kt.2))).map Prod.fst).foldl
    (remove_item sz) s

/-- The eviction loop inside `put`:
`while self.memory_usage + value_size > self.max_memory and self.cache:`
pop the head entry (`popitem(last=False)`) and subtract its size.  The
loop does *not* touch `timeouts`. -/
def evictLoop (sz : V → Nat) (max_memory : Nat) (value_size : Nat) :
    List (String × V) → Int → List (String × V) × Int
  | [], mem => ([], mem)
  | (k, v) :: rest, mem =>
      if mem + (value_size : Int) > (max_memory : Int) then
        evictLoop sz max_memory value_size rest (mem - (sz v : Int))
      else ((k, v) :: rest, mem)

/-- `get`: cleanup, then on a present, non-expired versioned key pop the
entry and re-append it at the tail (most recently used) and return its
value; otherwise return the default (`none`). -/
def get (sz : V → Nat) (s : LRUCache V) (now : Nat) (key : String) :
    Option V × LRUCache V :=
  let s' := cleanup_expired sz s now
  let vk := get_versioned_key s' key
  match lookupKey s'.cache vk with
  | none => (none, s')
  | some v =>
      if is_expired s' now vk then (none, s')
      else (some v, { s' with cache := eraseKey s'.cache vk ++ [(vk, v)] })

/-- Middle section of `put`: run the eviction loop on the state (after the
existing entry was removed), then insert the new entry at the tail
(`self.cache[versioned_key] = value`; the versioned key is never present
at this point on well-formed states, so the dict assignment appends) and
add its size to the memory counter. -/
def putInsert (sz : V → Nat) (s2 : LRUCache V) (vk : String) (value : V) : LRUCache V :=
  { s2 with
    cache := setKey (evictLoop sz s2.max_memory (sz value) s2.cache s2.memory_usage).1 vk value
    memory_usage :=
      (evictLoop sz s2.max_memory (sz value) s2.cache s2.memory_usage).2 + (sz value : Int) }

/-- Final section of `put`: set the timeout — the explicit `timeout` if
given, else `now + default_timeout` when `default_timeout` is truthy,
else nothing. -/
def putSetTimeout (s3 : LRUCache V) (now : Nat) (vk : String) (timeout : Option Nat) :
    LRUCache V :=
  match timeout with
  | some t => { s3 with timeouts := setKey s3.timeouts vk (now + t) }
  | none =>
      if s3.default_timeout ≠ 0 then
        { s3 with timeouts := setKey s3.timeouts vk (now + s3.default_timeout) }
      else s3

/-- `put`: cleanup; remove an existing entry under the versioned key;
evict from the head while over budget; insert the new entry at the tail
and add its size; finally set the timeout. -/
def put (sz : V → Nat) (s : LRUCache V) (now : Nat) (key : String) (value : V)
    (timeout : Option Nat) : LRUCache V :=
  let s1 := cleanup_expired sz s now
  let vk := get_versioned_key s1 key
  let s2 := if (lookupKey s1.cache vk).isSome then remove_item sz s1 vk else s1
  putSetTimeout (putInsert sz s2 vk value) now vk timeout

/-- The loop inside `force_eviction`, with explicit fuel (each iteration
removes the head entry, so `fuel = cache.length` is enough). -/
def forceLoop (sz : V → Nat) : Nat → LRUCache V → LRUCache V
  | 0, s => s
  | fuel + 1, s =>
      match s.cache with
      | [] => s
      | (k, _) :: _ =>
          if s.memory_usage > (s.max_memory : Int) then
            forceLoop sz fuel (remove_item sz s k)
          else s

/-- `force_eviction`: cleanup, then remove head items while over budget. -/
def force_eviction (sz : V → Nat) (s : LRUCache V) (now : Nat) : LRUCache V :=
  let s' := cleanup_expired sz s now
  forceLoop sz s'.cache.length s'

/-- `get_memory_usage`. -/
def get_memory_usage (s : LRUCache V) : Int := s.memory_usage

/-- `clear`: empty the cache and timeouts, zero the memory counter. -/
def clear (s : LRUCache V) : LRUCache V :=
  { s with cache := [], memory_usage := 0, timeouts := [] }

/-- `exists`: present under the versioned key and not expired. -/
def existsKey (s : LRUCache V) (now : Nat) (key : String) : Bool :=
  (lookupKey s.cache (get_versioned_key s key)).isSome &&
    !(is_expired s now (get_versioned_key s key))

/-- `update_version`: set the version, then `clear`. -/
def update_version (s : LRUCache V) (new_version : Nat) : LRUCache V :=
  clear { s with version := new_version }

/-- Modelled from the spec: `LocalLRUCache.delete(logical_key) -> bool` is
listed in the spec (§4.1: "removes entry if present, adjusts memory_usage;
returns whether something was removed") but the `LRUCache` class in
`src/api/src/cache/lru_cache.py` has no `delete` method; only the
remote-tier `RedisCluster.delete` exists.  The operation is modelled on
the class's own conventions: lookup under the versioned key, removal via
`_remove_item`. -/
def delete (sz : V → Nat) (s : LRUCache V) (key : String) : Bool × LRUCache V :=
  let vk := get_versioned_key s key
  if (lookupKey s.cache vk).isSome then (true, remove_item sz s vk)
  else (false, s)

end LRUCache

/-! ## Memory accounting (claim C1) -/

namespace LRUCache

variable {V : Type}

/-- Sum of the estimated sizes of the entries of an association list. -/
def sumSizes (sz : V → Nat) (l : List (String × V)) : Int :=
  (l.map (fun kv => (sz kv.2 : Int))).sum

@[simp] theorem sumSizes_nil (sz : V → Nat) : sumSizes sz ([] : List (String × V)) = 0 := rfl

@[simp] theorem sumSizes_cons (sz : V → Nat) (p : String × V) (l : List (String × V)) :
    sumSizes sz (p :: l) = (sz p.2 : Int) + sumSizes sz l := by
  simp [sumSizes]

@[simp] theorem sumSizes_append (sz : V → Nat) (l l' : List (String × V)) :
    sumSizes sz (l ++ l') = sumSizes sz l + sumSizes sz l' := by
  simp [sumSizes]

theorem sumSizes_eraseKey {sz : V → Nat} {l : List (String × V)} {k : String} {v : V}
    (h : lookupKey l k = some v) :
    sumSizes sz (eraseKey l k) = sumSizes sz l - (sz v : Int) := by
  induction l with
  | nil => simp [lookupKey] at h
  | cons p rest ih =>
      obtain ⟨k', v'⟩ := p
      by_cases hk : k' = k
      · subst hk
        simp only [lookupKey, if_true] at h
        injection h with hval
        subst hval
        simp only [eraseKey, if_true]
        simp
      · simp only [lookupKey, if_neg hk] at h
        simp [eraseKey, hk, ih h]
        ring

theorem setKey_eq_append_of_not_mem {β : Type} {l : List (String × β)} {k : String} {v : β}
    (h : k ∉ keysOf l) : setKey l k v = l ++ [(k, v)] := by
  induction l with
  | nil => simp [setKey]
  | cons p rest ih =>
      obtain ⟨k', v'⟩ := p
      simp only [keysOf_cons, List.mem_cons] at h
      push_neg at h
      simp [setKey, Ne.symm h.1, ih h.2]

/-- The well-formedness invariant of a cache state: unique keys and exact
memory accounting. -/
def Inv (sz : V → Nat) (s : LRUCache V) : Prop :=
  (keysOf s.cache).Nodup ∧ s.memory_usage = sumSizes sz s.cache

theorem init_inv (sz : V → Nat) (mb ver dt : Nat) : Inv sz (init V mb ver dt) := by
  constructor <;> simp [init, keysOf]

theorem remove_item_inv {sz : V → Nat} {s : LRUCache V} (h : Inv sz s) (key : String) :
    Inv sz (remove_item sz s key) := by
  unfold remove_item
  cases hl : lookupKey s.cache key with
  | none => exact h
  | some v =>
      refine ⟨nodup_keysOf_eraseKey h.1, ?_⟩
      simp [sumSizes_eraseKey hl, h.2]

theorem foldl_remove_item_inv {sz : V → Nat} (l : List String) {s : LRUCache V}
    (h : Inv sz s) : Inv sz (l.foldl (remove_item sz) s) := by
  induction l generalizing s with
  | nil => exact h
  | cons k rest ih => exact ih (remove_item_inv h k)

theorem cleanup_expired_inv {sz : V → Nat} {s : LRUCache V} (h : Inv sz s) (now : Nat) :
    Inv sz (cleanup_expired sz s now) :=
  foldl_remove_item_inv _ h

theorem remove_item_max {sz : V → Nat} (s : LRUCache V) (key : String) :
    (remove_item sz s key).max_memory = s.max_memory := by
  unfold remove_item
  cases lookupKey s.cache key <;> rfl

theorem remove_item_version {sz : V → Nat} (s : LRUCache V) (key : String) :
    (remove_item sz s key).version = s.version := by
  unfold remove_item
  cases lookupKey s.cache key <;> rfl

theorem remove_item_default_timeout {sz : V → Nat} (s : LRUCache V) (key : String) :
    (remove_item sz s key).default_timeout = s.default_timeout := by
  unfold remove_item
  cases lookupKey s.cache key <;> rfl

theorem foldl_remove_item_max {sz : V → Nat} (l : List String) (s : LRUCache V) :
    (l.foldl (remove_item sz) s).max_memory = s.max_memory := by
  induction l generalizing s with
  | nil => rfl
  | cons k rest ih => rw [List.foldl_cons, ih, remove_item_max]

theorem foldl_remove_item_version {sz : V → Nat} (l : List String) (s : LRUCache V) :
    (l.foldl (remove_item sz) s).version = s.version := by
  induction l generalizing s with
  | nil => rfl
  | cons k rest ih => rw [List.foldl_cons, ih, remove_item_version]

theorem foldl_remove_item_default_timeout {sz : V → Nat} (l : List String) (s : LRUCache V) :
    (l.foldl (remove_item sz) s).default_timeout = s.default_timeout := by
  induction l generalizing s with
  | nil => rfl
  | cons k rest ih => rw [List.foldl_cons, ih, remove_item_default_timeout]

theorem cleanup_expired_max {sz : V → Nat} (s : LRUCache V) (now : Nat) :
    (cleanup_expired sz s now).max_memory = s.max_memory :=
  foldl_remove_item_max _ s

theorem cleanup_expired_version {sz : V → Nat} (s : LRUCache V) (now : Nat) :
    (cleanup_expired sz s now).version = s.version :=
  foldl_remove_item_version _ s

theorem cleanup_expired_default_timeout {sz : V → Nat} (s : LRUCache V) (now : Nat) :
    (cleanup_expired sz s now).default_timeout = s.default_timeout :=
  foldl_remove_item_default_timeout _ s

/-- The eviction loop never changes the difference between the memory
counter and the summed entry sizes. -/
theorem evictLoop_diff {sz : V → Nat} (mx vs : Nat) :
    ∀ (c : List (String × V)) (m : Int),
      (evictLoop sz mx vs c m).2 - sumSizes sz (evictLoop sz mx vs c m).1 =
        m - sumSizes sz c := by
  intro c
  induction c with
  | nil => intro m; simp [evictLoop]
  | cons p rest ih =>
      intro m
      obtain ⟨k, v⟩ := p
      by_cases h : m + (vs : Int) > (mx : Int)
      · rw [evictLoop, if_pos h, ih]
        simp
        ring
      · rw [evictLoop, if_neg h]

/-- The survivors of the eviction loop are a suffix of the original
recency order: evicted entries are exactly an initial segment. -/
theorem evictLoop_suffix {sz : V → Nat} (mx vs : Nat) :
    ∀ (c : List (String × V)) (m : Int), (evictLoop sz mx vs c m).1 <:+ c := by
  intro c
  induction c with
  | nil => intro m; simp [evictLoop]
  | cons p rest ih =>
      intro m
      obtain ⟨k, v⟩ := p
      by_cases h : m + (vs : Int) > (mx : Int)
      · rw [evictLoop, if_pos h]
        exact (ih _).trans (List.suffix_cons (k, v) rest)
      · rw [evictLoop, if_neg h]

/-- After the eviction loop, either the budget would be respected by the
insertion, or the cache has been emptied. -/
theorem evictLoop_budget {sz : V → Nat} (mx vs : Nat) :
    ∀ (c : List (String × V)) (m : Int),
      (evictLoop sz mx vs c m).2 + (vs : Int) ≤ (mx : Int) ∨
        (evictLoop sz mx vs c m).1 = [] := by
  intro c
  induction c with
  | nil => intro m; right; simp [evictLoop]
  | cons p rest ih =>
      intro m
      obtain ⟨k, v⟩ := p
      by_cases h : m + (vs : Int) > (mx : Int)
      · rw [evictLoop, if_pos h]
        exact ih _
      · rw [evictLoop, if_neg h]
        left
        exact le_of_not_lt h

theorem putSetTimeout_cache (s3 : LRUCache V) (now : Nat) (vk : String)
    (timeout : Option Nat) : (putSetTimeout s3 now vk timeout).cache = s3.cache := by
  cases timeout with
  | some t => rfl
  | none =>
      by_cases hd : s3.default_timeout ≠ 0 <;> simp [putSetTimeout, hd]

theorem putSetTimeout_memory (s3 : LRUCache V) (now : Nat) (vk : String)
    (timeout : Option Nat) : (putSetTimeout s3 now vk timeout).memory_usage = s3.memory_usage := by
  cases timeout with
  | some t => rfl
  | none =>
      by_cases hd : s3.default_timeout ≠ 0 <;> simp [putSetTimeout, hd]

theorem putSetTimeout_max (s3 : LRUCache V) (now : Nat) (vk : String)
    (timeout : Option Nat) : (putSetTimeout s3 now vk timeout).max_memory = s3.max_memory := by
  cases timeout with
  | some t => rfl
  | none =>
      by_cases hd : s3.default_timeout ≠ 0 <;> simp [putSetTimeout, hd]

theorem putSetTimeout_version (s3 : LRUCache V) (now : Nat) (vk : String)
    (timeout : Option Nat) : (putSetTimeout s3 now vk timeout).version = s3.version := by
  cases timeout with
  | some t => rfl
  | none =>
      by_cases hd : s3.default_timeout ≠ 0 <;> simp [putSetTimeout, hd]

theorem putSetTimeout_default_timeout (s3 : LRUCache V) (now : Nat) (vk : String)
    (timeout : Option Nat) :
    (putSetTimeout s3 now vk timeout).default_timeout = s3.default_timeout := by
  cases timeout with
  | some t => rfl
  | none =>
      by_cases hd : s3.default_timeout ≠ 0 <;> simp [putSetTimeout, hd]

/-- The timeouts after `putSetTimeout` are the old ones, possibly with the
versioned key set. -/
theorem putSetTimeout_timeouts (s3 : LRUCache V) (now : Nat) (vk : String)
    (timeout : Option Nat) :
    (putSetTimeout s3 now vk timeout).timeouts = s3.timeouts ∨
      ∃ t, (putSetTimeout s3 now vk timeout).timeouts = setKey s3.timeouts vk t := by
  cases timeout with
  | some t => exact Or.inr ⟨now + t, rfl⟩
  | none =>
      by_cases hd : s3.default_timeout ≠ 0
      · exact Or.inr ⟨now + s3.default_timeout, by simp [putSetTimeout, hd]⟩
      · exact Or.inl (by simp [putSetTimeout, hd])

@[simp] theorem putInsert_cache (sz : V → Nat) (s2 : LRUCache V) (vk : String) (value : V) :
    (putInsert sz s2 vk value).cache =
      setKey (evictLoop sz s2.max_memory (sz value) s2.cache s2.memory_usage).1 vk value := rfl

@[simp] theorem putInsert_memory (sz : V → Nat) (s2 : LRUCache V) (vk : String) (value : V) :
    (putInsert sz s2 vk value).memory_usage =
      (evictLoop sz s2.max_memory (sz value) s2.cache s2.memory_usage).2 + (sz value : Int) := rfl

@[simp] theorem putInsert_max (sz : V → Nat) (s2 : LRUCache V) (vk : String) (value : V) :
    (putInsert sz s2 vk value).max_memory = s2.max_memory := rfl

@[simp] theorem putInsert_version (sz : V → Nat) (s2 : LRUCache V) (vk : String) (value : V) :
    (putInsert sz s2 vk value).version = s2.version := rfl

@[simp] theorem putInsert_default_timeout (sz : V → Nat) (s2 : LRUCache V) (vk : String)
    (value : V) : (putInsert sz s2 vk value).default_timeout = s2.default_timeout := rfl

@[simp] theorem putInsert_timeouts (sz : V → Nat) (s2 : LRUCache V) (vk : String) (value : V) :
    (putInsert sz s2 vk value).timeouts = s2.timeouts := rfl

/-- Unfolding of `put` into its stages. -/
theorem put_eq (sz : V → Nat) (s : LRUCache V) (now : Nat) (key : String) (value : V)
    (timeout : Option Nat) :
    put sz s now key value timeout =
      putSetTimeout
        (putInsert sz
          (if (lookupKey (cleanup_expired sz s now).cache
                (get_versioned_key (cleanup_expired sz s now) key)).isSome then
            remove_item sz (cleanup_expired sz s now)
              (get_versioned_key (cleanup_expired sz s now) key)
          else cleanup_expired sz s now)
          (get_versioned_key (cleanup_expired sz s now) key) value)
        now (get_versioned_key (cleanup_expired sz s now) key) timeout := rfl

theorem put_max {sz : V → Nat} (s : LRUCache V) (now : Nat) (key : String) (value : V)
    (timeout : Option Nat) : (put sz s now key value timeout).max_memory = s.max_memory := by
  rw [put_eq, putSetTimeout_max, putInsert_max]
  by_cases hp : (lookupKey (cleanup_expired sz s now).cache
      (get_versioned_key (cleanup_expired sz s now) key)).isSome <;>
    simp [hp, remove_item_max, cleanup_expired_max]

theorem put_version {sz : V → Nat} (s : LRUCache V) (now : Nat) (key : String) (value : V)
    (timeout : Option Nat) : (put sz s now key value timeout).version = s.version := by
  rw [put_eq, putSetTimeout_version, putInsert_version]
  by_cases hp : (lookupKey (cleanup_expired sz s now).cache
      (get_versioned_key (cleanup_expired sz s now) key)).isSome <;>
    simp [hp, remove_item_version, cleanup_expired_version]

theorem put_default_timeout {sz : V → Nat} (s : LRUCache V) (now : Nat) (key : String)
    (value : V) (timeout : Option Nat) :
    (put sz s now key value timeout).default_timeout = s.default_timeout := by
  rw [put_eq, putSetTimeout_default_timeout, putInsert_default_timeout]
  by_cases hp : (lookupKey (cleanup_expired sz s now).cache
      (get_versioned_key (cleanup_expired sz s now) key)).isSome <;>
    simp [hp, remove_item_default_timeout, cleanup_expired_default_timeout]

/-- The invariant only mentions `cache` and `memory_usage`, which
`putSetTimeout` leaves untouched. -/
theorem putSetTimeout_inv {sz : V → Nat} {s3 : LRUCache V} (h : Inv sz s3) (now : Nat)
    (vk : String) (timeout : Option Nat) : Inv sz (putSetTimeout s3 now vk timeout) := by
  unfold Inv
  rw [putSetTimeout_cache, putSetTimeout_memory]
  exact h

/-- `putInsert` preserves the invariant when the versioned key is absent,
and respects the budget whenever the inserted value itself fits. -/
theorem putInsert_inv {sz : V → Nat} {s2 : LRUCache V} (h2 : Inv sz s2) {vk : String}
    (hnk : vk ∉ keysOf s2.cache) (value : V) :
    Inv sz (putInsert sz s2 vk value) ∧
      ((sz value : Int) ≤ (s2.max_memory : Int) →
        (putInsert sz s2 vk value).memory_usage ≤ (s2.max_memory : Int)) := by
  set cm := evictLoop sz s2.max_memory (sz value) s2.cache s2.memory_usage with hcm
  have hdiff : cm.2 - sumSizes sz cm.1 = s2.memory_usage - sumSizes sz s2.cache :=
    evictLoop_diff _ _ _ _
  have hmem2 : cm.2 = sumSizes sz cm.1 := by
    have := h2.2
    omega
  have hsuffix : cm.1 <:+ s2.cache := evictLoop_suffix _ _ _ _
  have hsub : List.Sublist (keysOf cm.1) (keysOf s2.cache) := by
    rcases hsuffix with ⟨t, ht⟩
    rw [← ht]
    simp only [keysOf_append]
    exact List.sublist_append_right _ _
  have hnd3 : (keysOf cm.1).Nodup := hsub.nodup h2.1
  have hnk3 : vk ∉ keysOf cm.1 := fun hc => hnk (hsub.mem hc)
  have hset : setKey cm.1 vk value = cm.1 ++ [(vk, value)] :=
    setKey_eq_append_of_not_mem hnk3
  refine ⟨⟨?_, ?_⟩, ?_⟩
  · rw [putInsert_cache, ← hcm, hset]
    simp only [keysOf_append]
    rw [List.nodup_append]
    refine ⟨hnd3, ?_, ?_⟩
    · simp [keysOf]
    · intro a ha hb
      simp only [keysOf, List.map_cons, List.map_nil, List.mem_singleton] at hb
      subst hb
      exact hnk3 ha
  · rw [putInsert_cache, putInsert_memory, ← hcm, hset]
    simp [hmem2]
  · intro hv
    rw [putInsert_memory, ← hcm]
    rcases @evictLoop_budget V sz s2.max_memory (sz value) s2.cache s2.memory_usage with
      hb | hb
    · rw [← hcm] at hb
      omega
    · rw [← hcm] at hb
      rw [hb] at hmem2
      simp at hmem2
      omega

/-- Core preservation: `put` keeps the accounting invariant, and keeps
`memory_usage ≤ max_memory` whenever the inserted value itself fits in
the budget. -/
theorem put_inv {sz : V → Nat} {s : LRUCache V} (h : Inv sz s) (now : Nat) (key : String)
    (value : V) (timeout : Option Nat) :
    Inv sz (put sz s now key value timeout) ∧
      ((sz value : Int) ≤ (s.max_memory : Int) →
        (put sz s now key value timeout).memory_usage ≤
          ((put sz s now key value timeout).max_memory : Int)) := by
  have h1 : Inv sz (cleanup_expired sz s now) := cleanup_expired_inv h now
  set s1 := cleanup_expired sz s now with hs1
  set vk := get_versioned_key s1 key with hvk
  set s2 := if (lookupKey s1.cache vk).isSome then remove_item sz s1 vk else s1 with hs2
  have h2 : Inv sz s2 := by
    rw [hs2]
    by_cases hp : (lookupKey s1.cache vk).isSome
    · simpa [hp] using remove_item_inv h1 vk
    · simpa [hp] using h1
  have hnk : vk ∉ keysOf s2.cache := by
    rw [hs2]
    by_cases hp : (lookupKey s1.cache vk).isSome
    · simp only [hp, if_true]
      rcases Option.isSome_iff_exists.mp hp with ⟨v, hv⟩
      unfold remove_item
      rw [hv]
      exact not_mem_keysOf_eraseKey_self h1.1
    · simp only [hp, if_false]
      rw [← lookupKey_isSome_iff_mem]
      simpa using hp
  have hmax2 : s2.max_memory = s.max_memory := by
    rw [hs2]
    by_cases hp : (lookupKey s1.cache vk).isSome <;>
      simp [hp, remove_item_max, cleanup_expired_max, hs1]
  have hput : put sz s now key value timeout = putSetTimeout (putInsert sz s2 vk value) now vk
      timeout := by
    rw [put_eq, ← hs1, ← hvk, ← hs2]
  obtain ⟨hinv3, hbud3⟩ := putInsert_inv h2 hnk value
  constructor
  · rw [hput]
    exact putSetTimeout_inv hinv3 now vk timeout
  · intro hv
    rw [put_max]
    rw [hput, putSetTimeout_memory]
    rw [← hmax2] at hv ⊢
    exact hbud3 hv

end LRUCache

/-- One `put` call of a sequence: its `time.time()` reading, logical key,
value and optional ttl. -/
structure PutOp (V : Type) where
  now : Nat
  key : String
  value : V
  timeout : Option Nat

/-- Fold a sequence of `put` calls over a cache state. -/
def putSeq {V : Type} (sz : V → Nat) (s : LRUCache V) (ops : List (PutOp V)) : LRUCache V :=
  ops.foldl (fun s op => LRUCache.put sz s op.now op.key op.value op.timeout) s

@[simp] theorem putSeq_nil {V : Type} (sz : V → Nat) (s : LRUCache V) :
    putSeq sz s [] = s := rfl

@[simp] theorem putSeq_cons {V : Type} (sz : V → Nat) (s : LRUCache V) (op : PutOp V)
    (rest : List (PutOp V)) :
    putSeq sz s (op :: rest) =
      putSeq sz (LRUCache.put sz s op.now op.key op.value op.timeout) rest := rfl

/-- One cache operation other than `clear` / `update_version`, for the
persistence part of claim C10. -/
inductive CacheOp (V : Type) where
  | opGet (now : Nat) (key : String)
  | opPut (now : Nat) (key : String) (value : V) (timeout : Option Nat)
  | opForce (now : Nat)

/-- Apply one operation to a cache state (`get` is applied for its state
effect). -/
def applyOp {V : Type} (sz : V → Nat) (s : LRUCache V) : CacheOp V → LRUCache V
  | .opGet now key => (LRUCache.get sz s now key).2
  | .opPut now key value timeout => LRUCache.put sz s now key value timeout
  | .opForce now => LRUCache.force_eviction sz s now

/-- Apply a sequence of operations. -/
def applyOps {V : Type} (sz : V → Nat) (s : LRUCache V) (ops : List (CacheOp V)) : LRUCache V :=
  ops.foldl (applyOp sz) s

/-- An orphaned timestamp: the expiry map holds the key but the cache does
not. -/
def Orphan {V : Type} (s : LRUCache V) (k : String) : Prop :=
  k ∈ keysOf s.timeouts ∧ k ∉ keysOf s.cache

/-! ## Remote tier: `lru_tracker.py` over a model of the redis store -/

/-- State of the remote store together with the `lru_access` sorted-set
index (member → score). -/
structure RemoteState where
  store : List (String × String)
  index : List (String × Nat)

/-- Order of the `lru_access` sorted set: by score.  (Redis breaks score
ties lexicographically by member; the claims below only use the scores of
the selected keys, so the tie-break is left to the sort's stability.) -/
def indexLE (a b : String × Nat) : Prop := a.2 ≤ b.2

instance : DecidableRel indexLE := fun a b => Nat.decLe a.2 b.2

instance : IsTotal (String × Nat) indexLE := ⟨fun a b => Nat.le_total a.2 b.2⟩

instance : IsTrans (String × Nat) indexLE := ⟨fun _ _ _ h h' => Nat.le_trans h h'⟩

/-- The index in ascending score order (`ZRANGE` order). -/
def sortIndex (idx : List (String × Nat)) : List (String × Nat) :=
  idx.insertionSort indexLE

/-- `track_access(key)`: `cluster.zadd("lru_access", {key: timestamp})` —
set the member's score to the current time. -/
def track_access (st : RemoteState) (key : String) (now : Nat) : RemoteState :=
  { st with index := setKey st.index key now }

/-- `evict_oldest(max_memory)` from `src/src/cache/lru_tracker.py`.
`used_memory` models `int(cluster.info("memory")["used_memory"])`.
`int(0.1 * total_keys)` truncates a non-negative float, i.e. takes the
floor; `0.1` is modelled as the exact rational `1/10`, so the victim
count is `total_keys / 10` in natural division (exact for every
`total_keys` small enough that the binary-float product does not cross an
integer, and in particular for all counterexamples used below). -/
def evict_oldest (st : RemoteState) (used_memory max_memory : Nat) : RemoteState :=
  if used_memory < max_memory then st
  else
    let total_keys := st.index.length
    let n0 := total_keys / 10
    let num_to_remove := if n0 < 1 then 1 else n0
    let oldest_keys := ((sortIndex st.index).take num_to_remove).map Prod.fst
    if oldest_keys = [] then st
    else
      { store := st.store.filter (fun kv => decide (kv.1 ∉ oldest_keys))
        index := st.index.filter (fun kv => decide (kv.1 ∉ oldest_keys)) }

/-! ## `cluster.py`: `get_slot_distribution` and `RedisCluster` -/

/-- A transient remote I/O error (`redis.RedisError` and its timeout /
connection subclasses). -/
inductive RedisErr where
  | timeout
  | connectionRefused
  | other
deriving DecidableEq, Inhabited

/-- Python `int()` on the numeric strings the redis `cluster("info")`
reply holds (non-numeric strings would raise in Python; no claim
exercises them). -/
def pyInt (s : String) : Int := (s.toInt?).getD 0

/-- Python `info.get(k, d)`. -/
def lookupKeyD (info : List (String × String)) (k d : String) : String :=
  (lookupKey info k).getD d

/-- `get_slot_distribution` from `src/api/src/cache/cluster.py`.  Its
input is the outcome of `redis.cluster("info")`: an error
(`except RedisError`) or a reply dict (Python `None` is modelled as the
empty, falsy dict).  The returned dict has the keys `total_slots`,
`nodes` and `slots_per_node`; `slots / nodes` is Python float division,
modelled as exact rational division (the fallback branches the claims
exercise return integers untouched by it). -/
def get_slot_distribution (res : Except RedisErr (List (String × String))) :
    List (String × ℚ) :=
  match res with
  | .error _ => [("total_slots", 16384), ("nodes", 1), ("slots_per_node", 16384)]
  | .ok info =>
      if info ≠ [] ∧ lookupKeyD info "cluster_enabled" "0" = "1" then
        let slots : ℚ := match lookupKey info "cluster_slots" with
          | some s => (pyInt s : ℚ)
          | none => 16384
        let nodes : ℚ := match lookupKey info "cluster_known_nodes" with
          | some s => (pyInt s : ℚ)
          | none => 3
        [("total_slots", slots), ("nodes", nodes),
          ("slots_per_node", if nodes > 0 then slots / nodes else slots)]
      else [("total_slots", 16384), ("nodes", 1), ("slots_per_node", 16384)]

/-- The descriptor the spec's claim names, with a `node_count` key —
written from the spec's words, for comparison with the code's
descriptor. -/
def specStandaloneDescriptor : List (String × ℚ) :=
  [("total_slots", 16384), ("node_count", 1), ("slots_per_node", 16384)]

namespace RedisCluster

/-- `RedisCluster.get`: returns the underlying client's answer, or `None`
on `RedisError` (logged, not propagated). -/
def get (res : Except RedisErr (Option String)) : Option String :=
  match res with
  | .ok v => v
  | .error _ => none

/-- `RedisCluster.set`: the client's boolean answer, or `False` on
`RedisError`. -/
def set (res : Except RedisErr Bool) : Bool :=
  match res with
  | .ok b => b
  | .error _ => false

/-- `RedisCluster.delete`: `bool(self.client.delete(key))` — the client
returns the number of keys removed — or `False` on `RedisError`. -/
def delete (res : Except RedisErr Nat) : Bool :=
  match res with
  | .ok n => decide (n ≠ 0)
  | .error _ => false

/-- The redis server's `DEL key`: the number of keys removed and the
remaining store. -/
def redisDel (store : List (String × String)) (k : String) : Nat × List (String × String) :=
  ((store.filter (fun kv => decide (kv.1 = k))).length,
    store.filter (fun kv => decide (kv.1 ≠ k)))

/-- `RedisCluster.delete` run against the store model (no transport
error): the boolean result and the store afterwards. -/
def deleteOnStore (store : List (String × String)) (k : String) :
    Bool × List (String × String) :=
  (delete (.ok (redisDel store k).1), (redisDel store k).2)

end RedisCluster

/-! ## `tasks.py`: cache keys and namespace invalidation -/

/-- `CACHE_VERSION = 2`. -/
def CACHE_VERSION : Nat := 2

/-- `get_cache_key(project_path, project_id=None)`; `hashPath` abstracts
`hashlib.sha256(project_path.encode()).hexdigest()`. -/
def get_cache_key (hashPath : String → String) (project_path : String)
    (project_id : Option String) : String :=
  match project_id with
  | some pid =>
      "analysis_v" ++ toString CACHE_VERSION ++ ":" ++ pid ++ ":" ++ hashPath project_path
  | none => "analysis_v" ++ toString CACHE_VERSION ++ ":" ++ hashPath project_path

/-- Redis `KEYS` glob matching restricted to the constructs the pattern
in `invalidar_projeto` uses: literal characters and `*` (which matches
any sequence of characters, `:` included).  A `*` matches when the rest
of the pattern matches some suffix of the rest of the string —
equivalent to the usual backtracking matcher, and structurally recursive
on the pattern. -/
def globMatch : List Char → List Char → Bool
  | [], s => s.isEmpty
  | '*' :: ps, s => (s.tails).any (fun t => globMatch ps t)
  | _ :: _, [] => false
  | p :: ps, c :: cs => p == c && globMatch ps cs

/-- Glob matching on strings. -/
def globMatchStr (pat s : String) : Bool := globMatch pat.toList s.toList

/-- `redis.keys(pattern)` over the store model. -/
def redisKeys (store : List (String × String)) (pat : String) : List String :=
  (store.map Prod.fst).filter (fun k => globMatchStr pat k)

/-- `invalidar_projeto(project_id)` from `src/api/src/tasks.py`: collect
the keys matching `analysis_v{CACHE_VERSION}:*:{project_id}`, delete
them, and return them. -/
def invalidar_projeto (store : List (String × String)) (project_id : String) :
    List String × List (String × String) :=
  let pat := "analysis_v" ++ toString CACHE_VERSION ++ ":*:" ++ project_id
  let keys := redisKeys store pat
  (keys, if keys = [] then store else store.filter (fun kv => decide (kv.1 ∉ keys)))

namespace LRUCache

variable {V : Type}

theorem putSeq_inv_budget {sz : V → Nat} (ops : List (PutOp V)) {s : LRUCache V}
    (h : Inv sz s) (hb : s.memory_usage ≤ (s.max_memory : Int))
    (hops : ∀ op ∈ ops, (sz op.value : Int) ≤ (s.max_memory : Int)) :
    Inv sz (putSeq sz s ops) ∧
      (putSeq sz s ops).memory_usage ≤ ((putSeq sz s ops).max_memory : Int) ∧
      (putSeq sz s ops).max_memory = s.max_memory := by
  induction ops generalizing s with
  | nil => exact ⟨h, hb, rfl⟩
  | cons op rest ih =>
      have hsz : (sz op.value : Int) ≤ (s.max_memory : Int) := hops op (by simp)
      have hput := put_inv h op.now op.key op.value op.timeout
      have hmax : (put sz s op.now op.key op.value op.timeout).max_memory = s.max_memory :=
        put_max s op.now op.key op.value op.timeout
      have hrest : ∀ o ∈ rest,
          (sz o.value : Int) ≤ ((put sz s op.now op.key op.value op.timeout).max_memory : Int) := by
        intro o ho
        rw [hmax]
        exact hops o (by simp [ho])
      have := ih hput.1 (hput.2 hsz) hrest
      rw [putSeq_cons]
      refine ⟨this.1, this.2.1, ?_⟩
      rw [this.2.2, hmax]

end LRUCache

/-- C1 (amended): for every sequence of `put` operations on a fresh
`LRUCache`, after each `put` the memory counter equals the sum of the
estimated sizes of the entries currently in the cache; and it never
exceeds `max_memory` provided every inserted value's estimated size is at
most `max_memory` (the unconditional bound of the original claim fails,
see `C1_counterexample`: a single value larger than the whole budget is
inserted after the eviction loop empties the cache). -/
theorem C1_put_sequence_memory_accounting {V : Type} (sz : V → Nat) (mb ver dt : Nat)
    (ops : List (PutOp V)) :
    (putSeq sz (LRUCache.init V mb ver dt) ops).memory_usage =
        LRUCache.sumSizes sz (putSeq sz (LRUCache.init V mb ver dt) ops).cache ∧
      ((∀ op ∈ ops, (sz op.value : Int) ≤ ((LRUCache.init V mb ver dt).max_memory : Int)) →
        (putSeq sz (LRUCache.init V mb ver dt) ops).memory_usage ≤
          ((putSeq sz (LRUCache.init V mb ver dt) ops).max_memory : Int)) := by
  constructor
  · -- exact accounting holds for every sequence, oversized values included
    have : ∀ (l : List (PutOp V)) (s : LRUCache V), LRUCache.Inv sz s →
        LRUCache.Inv sz (putSeq sz s l) := by
      intro l
      induction l with
      | nil => exact fun s h => h
      | cons op rest ih =>
          intro s h
          exact ih _ (LRUCache.put_inv h op.now op.key op.value op.timeout).1
    exact (this ops _ (LRUCache.init_inv sz mb ver dt)).2
  · intro hops
    exact (LRUCache.putSeq_inv_budget ops (LRUCache.init_inv sz mb ver dt)
      (by simp [LRUCache.init]) hops).2.1

/-- C1 counterexample: a single `put` of a value whose estimated size
(2000000 bytes) exceeds the whole budget (`max_memory_mb = 1`, i.e.
1048576 bytes) finishes with `memory_usage > max_memory`, refuting the
claim's unconditional bound. -/
theorem C1_counterexample :
    ¬ ((putSeq (fun n : Nat => n) (LRUCache.init Nat 1 1 30)
          [⟨0, "k", 2000000, none⟩]).memory_usage ≤
        ((putSeq (fun n : Nat => n) (LRUCache.init Nat 1 1 30)
          [⟨0, "k", 2000000, none⟩]).max_memory : Int)) := by
  decide

/-- C1 witness: the amended theorem applied to a concrete two-put
sequence whose values fit the budget. -/
theorem C1_witness :
    (putSeq (fun n : Nat => n) (LRUCache.init Nat 1 1 30)
        [⟨0, "a", 5, none⟩, ⟨1, "b", 7, some 10⟩]).memory_usage =
      LRUCache.sumSizes (fun n : Nat => n)
        (putSeq (fun n : Nat => n) (LRUCache.init Nat 1 1 30)
          [⟨0, "a", 5, none⟩, ⟨1, "b", 7, some 10⟩]).cache ∧
    (putSeq (fun n : Nat => n) (LRUCache.init Nat 1 1 30)
        [⟨0, "a", 5, none⟩, ⟨1, "b", 7, some 10⟩]).memory_usage ≤
      ((putSeq (fun n : Nat => n) (LRUCache.init Nat 1 1 30)
        [⟨0, "a", 5, none⟩, ⟨1, "b", 7, some 10⟩]).max_memory : Int) := by
  have h := C1_put_sequence_memory_accounting (fun n : Nat => n) 1 1 30
    [⟨0, "a", 5, none⟩, ⟨1, "b", 7, some 10⟩]
  exact ⟨h.1, h.2 (by decide)⟩

theorem mem_of_lookupKey_eq_some {β : Type} {l : List (String × β)} {k : String} {v : β}
    (h : lookupKey l k = some v) : (k, v) ∈ l := by
  induction l with
  | nil => simp [lookupKey] at h
  | cons p rest ih =>
      obtain ⟨k', v'⟩ := p
      by_cases hk : k' = k
      · subst hk
        simp only [lookupKey, if_true] at h
        injection h with hval
        subst hval
        exact List.mem_cons_self _ _
      · simp only [lookupKey, if_neg hk] at h
        exact List.mem_cons_of_mem _ (ih h)

namespace LRUCache

variable {V : Type}

/-- `get` on a state with empty cache and empty expiry map returns the
default `None`. -/
theorem get_on_cleared (sz : V → Nat) (mx : Nat) (m : Int) (ver dt now : Nat) (key : String) :
    (get sz ⟨mx, [], m, ver, dt, []⟩ now key).1 = none := by
  unfold get cleanup_expired
  simp [lookupKey]

/-- Evaluating `put` on a state with empty cache and empty expiry map:
the entry lands alone in the cache and any timeout set lies in the
future. -/
theorem put_on_cleared (sz : V → Nat) (mx ver dt now : Nat) (k : String) (v : V)
    (t2 : Option Nat) :
    ∃ T : List (String × Nat), (∀ p ∈ T, now ≤ p.2) ∧
      put sz ⟨mx, [], 0, ver, dt, []⟩ now k v t2 =
        ⟨mx, [(versionedKey ver k, v)], 0 + (sz v : Int), ver, dt, T⟩ := by
  cases t2 with
  | some t =>
      exact ⟨[(versionedKey ver k, now + t)], by simp, rfl⟩
  | none =>
      by_cases hd : dt ≠ 0
      · refine ⟨[(versionedKey ver k, now + dt)], by simp, ?_⟩
        show putSetTimeout
          (⟨mx, [(versionedKey ver k, v)], 0 + (sz v : Int), ver, dt, []⟩ : LRUCache V)
          now (versionedKey ver k) none = _
        simp [putSetTimeout, hd]
      · push_neg at hd
        subst hd
        refine ⟨[], by simp, ?_⟩
        show putSetTimeout
          (⟨mx, [(versionedKey ver k, v)], 0 + (sz v : Int), ver, 0, []⟩ : LRUCache V)
          now (versionedKey ver k) none = _
        simp [putSetTimeout]

/-- `get` at time `now` on a state holding exactly one entry under the
requested versioned key, whose timeouts all lie at or after `now`,
returns that entry's value. -/
theorem get_fresh_hit (sz : V → Nat) (mx : Nat) (m : Int) (ver dt now : Nat) (k : String)
    (v : V) (T : List (String × Nat)) (hT : ∀ p ∈ T, now ≤ p.2) :
    (get sz ⟨mx, [(versionedKey ver k, v)], m, ver, dt, T⟩ now k).1 = some v := by
  have hfil : T.filter (fun kt => decide (now > kt.2)) = [] := by
    rw [List.filter_eq_nil_iff]
    intro p hp
    simp [Nat.not_lt.mpr (hT p hp)]
  have hexp : is_expired (⟨mx, [(versionedKey ver k, v)], m, ver, dt, T⟩ : LRUCache V) now
      (versionedKey ver k) = false := by
    unfold is_expired
    cases hl : lookupKey T (versionedKey ver k) with
    | none => rfl
    | some t' =>
        have := hT _ (mem_of_lookupKey_eq_some hl)
        simp only [decide_eq_false_iff_not]
        omega
  unfold get cleanup_expired
  rw [hfil]
  simp only [List.map_nil, List.foldl_nil]
  simp [get_versioned_key, lookupKey, hexp]

end LRUCache

/-- C2 (confirmed): when a `put` must evict because the memory budget
would be exceeded, the entry removed is the head of the recency order —
the least recently used — and the loop's survivors are always a suffix of
the original order (evicted entries form an initial, i.e. oldest,
segment); and a successful `get` moves its entry to the tail, the
most-recently-used position. -/
theorem C2_eviction_takes_lru_head {V : Type} (sz : V → Nat) (mx vs : Nat) :
    (∀ (k : String) (v : V) (rest : List (String × V)) (m : Int),
        m + (vs : Int) > (mx : Int) →
        LRUCache.evictLoop sz mx vs ((k, v) :: rest) m =
          LRUCache.evictLoop sz mx vs rest (m - (sz v : Int))) ∧
    (∀ (c : List (String × V)) (m : Int), (LRUCache.evictLoop sz mx vs c m).1 <:+ c) ∧
    (∀ (s : LRUCache V) (now : Nat) (key : String) (v : V),
        lookupKey (LRUCache.cleanup_expired sz s now).cache
            (LRUCache.get_versioned_key (LRUCache.cleanup_expired sz s now) key) = some v →
        LRUCache.is_expired (LRUCache.cleanup_expired sz s now) now
            (LRUCache.get_versioned_key (LRUCache.cleanup_expired sz s now) key) = false →
        (LRUCache.get sz s now key).1 = some v ∧
          ((LRUCache.get sz s now key).2.cache).getLast? =
            some (LRUCache.get_versioned_key (LRUCache.cleanup_expired sz s now) key, v)) := by
  refine ⟨?_, LRUCache.evictLoop_suffix mx vs, ?_⟩
  · intro k v rest m hm
    rw [LRUCache.evictLoop, if_pos hm]
  · intro s now key v hl hexp
    unfold LRUCache.get
    simp only [hl, hexp, Bool.false_eq_true, if_false]
    constructor
    · trivial
    · rw [List.getLast?_append_of_ne_nil _ (by simp)]
      rfl

/-- C2 witness: the theorem applied to a concrete overfull state and a
concrete hit. -/
theorem C2_witness :
    LRUCache.evictLoop (fun n : Nat => n) 10 5 [("x", 8)] 8 =
        LRUCache.evictLoop (fun n : Nat => n) 10 5 [] (8 - 8) ∧
      (LRUCache.get (fun n : Nat => n)
          (⟨100, [("v1:a", 3), ("v1:b", 4)], 7, 1, 0, []⟩ : LRUCache Nat) 0 "a").1 = some 3 ∧
      ((LRUCache.get (fun n : Nat => n)
          (⟨100, [("v1:a", 3), ("v1:b", 4)], 7, 1, 0, []⟩ : LRUCache Nat) 0 "a").2.cache).getLast? =
        some ("v1:a", 3) := by
  have h := C2_eviction_takes_lru_head (fun n : Nat => n) 10 5
  have h3 := h.2.2 (⟨100, [("v1:a", 3), ("v1:b", 4)], 7, 1, 0, []⟩ : LRUCache Nat) 0 "a" 3
    (by decide) (by decide)
  exact ⟨h.1 "x" 8 [] 8 (by decide), h3.1, h3.2⟩

/-- C3 (confirmed): `update_version(v2)` sets the version and clears all
entries, so `get` of a key put under the old version returns absent; a
subsequent `put` of the same key under the new version followed by `get`
at the same instant returns the value. -/
theorem C3_version_bump_flushes {V : Type} (sz : V → Nat) (s : LRUCache V) (k : String)
    (v : V) (v1 v2 : Nat) (hv1 : s.version = v1) (hne : v2 ≠ v1) (now now2 now3 : Nat)
    (t t2 : Option Nat) :
    (LRUCache.update_version (LRUCache.put sz s now k v t) v2).version = v2 ∧
    (LRUCache.update_version (LRUCache.put sz s now k v t) v2).cache = [] ∧
    (LRUCache.update_version (LRUCache.put sz s now k v t) v2).memory_usage = 0 ∧
    (LRUCache.update_version (LRUCache.put sz s now k v t) v2).timeouts = [] ∧
    (LRUCache.get sz (LRUCache.update_version (LRUCache.put sz s now k v t) v2) now2 k).1 =
      none ∧
    (LRUCache.get sz
        (LRUCache.put sz (LRUCache.update_version (LRUCache.put sz s now k v t) v2) now3 k v t2)
        now3 k).1 = some v := by
  refine ⟨rfl, rfl, rfl, rfl, ?_, ?_⟩
  · exact LRUCache.get_on_cleared sz (LRUCache.put sz s now k v t).max_memory 0 v2
      (LRUCache.put sz s now k v t).default_timeout now2 k
  · obtain ⟨T, hT, hput⟩ := LRUCache.put_on_cleared sz (LRUCache.put sz s now k v t).max_memory
      v2 (LRUCache.put sz s now k v t).default_timeout now3 k v t2
    show (LRUCache.get sz (LRUCache.put sz
        (⟨(LRUCache.put sz s now k v t).max_memory, [], 0, v2,
          (LRUCache.put sz s now k v t).default_timeout, []⟩ : LRUCache V) now3 k v t2)
        now3 k).1 = some v
    rw [hput]
    exact LRUCache.get_fresh_hit sz _ _ v2 _ now3 k v T hT

/-- C3 witness: the theorem at a concrete cache, key and value. -/
theorem C3_witness :
    (LRUCache.update_version
        (LRUCache.put (fun n : Nat => n) (LRUCache.init Nat 1 1 30) 0 "p" 5 none) 2).cache =
        [] ∧
      (LRUCache.get (fun n : Nat => n)
          (LRUCache.update_version
            (LRUCache.put (fun n : Nat => n) (LRUCache.init Nat 1 1 30) 0 "p" 5 none) 2)
          0 "p").1 = none ∧
      (LRUCache.get (fun n : Nat => n)
          (LRUCache.put (fun n : Nat => n)
            (LRUCache.update_version
              (LRUCache.put (fun n : Nat => n) (LRUCache.init Nat 1 1 30) 0 "p" 5 none) 2)
            0 "p" 5 none)
          0 "p").1 = some 5 := by
  have h := C3_version_bump_flushes (fun n : Nat => n) (LRUCache.init Nat 1 1 30) "p" 5 1 2
    rfl (by decide) 0 0 0 none none
  exact ⟨h.2.1, h.2.2.2.2.1, h.2.2.2.2.2⟩

/-- C8 (amended): `get` and `put` perform no validation of the logical
key.  An empty logical key is accepted and processed exactly like any
other key: `put("")` stores the value under the versioned key
`"v{version}:"` and a subsequent `get("")` returns it; no rejected-input
signal exists on either path. -/
theorem C8_empty_key_processed_normally {V : Type} (sz : V → Nat) (mb ver dt now : Nat)
    (v : V) (t : Option Nat) :
    lookupKey (LRUCache.put sz (LRUCache.init V mb ver dt) now "" v t).cache
        (LRUCache.versionedKey ver "") = some v ∧
      (LRUCache.get sz (LRUCache.put sz (LRUCache.init V mb ver dt) now "" v t) now "").1 =
        some v := by
  obtain ⟨T, hT, hput⟩ := LRUCache.put_on_cleared sz (mb * 1024 * 1024) ver dt now "" v t
  constructor
  · show lookupKey (LRUCache.put sz
        (⟨mb * 1024 * 1024, [], 0, ver, dt, []⟩ : LRUCache V) now "" v t).cache
        (LRUCache.versionedKey ver "") = some v
    rw [hput]
    simp [lookupKey]
  · show (LRUCache.get sz (LRUCache.put sz
        (⟨mb * 1024 * 1024, [], 0, ver, dt, []⟩ : LRUCache V) now "" v t) now "").1 = some v
    rw [hput]
    exact LRUCache.get_fresh_hit sz _ _ ver dt now "" v T hT

/-- C8 counterexample: the original claim says an empty logical key makes
the operation fail fast and "never silently proceed" — but `put` with the
empty key inserts an ordinary entry under `"v1:"` and `get` with the
empty key returns it, exactly as for any other key: the code has no input
validation and proceeds silently. -/
theorem C8_counterexample :
    (LRUCache.put (fun n : Nat => n) (LRUCache.init Nat 1 1 30) 0 "" 5 none).cache =
        [("v1:", 5)] ∧
      (LRUCache.get (fun n : Nat => n)
          (LRUCache.put (fun n : Nat => n) (LRUCache.init Nat 1 1 30) 0 "" 5 none) 0 "").1 =
        some 5 := by
  decide

/-- C9 (confirmed; the local `delete` is modelled from the spec since
`LRUCache` has no `delete` method): `delete` removes the entry if
present, adjusts `memory_usage`, and returns whether something was
removed; the second of two successive `delete`s of the same key returns
false, changes nothing (in particular not `memory_usage`), and the same
holds for the remote `RedisCluster.delete` against the store model. -/
theorem delete_of_lookup_some {V : Type} {sz : V → Nat} {s : LRUCache V} {k : String} {v : V}
    (hv : lookupKey s.cache (LRUCache.get_versioned_key s k) = some v) :
    LRUCache.delete sz s k =
      (true, LRUCache.remove_item sz s (LRUCache.get_versioned_key s k)) := by
  unfold LRUCache.delete
  simp [hv]

theorem delete_of_lookup_none {V : Type} {sz : V → Nat} {s : LRUCache V} {k : String}
    (hv : lookupKey s.cache (LRUCache.get_versioned_key s k) = none) :
    LRUCache.delete sz s k = (false, s) := by
  unfold LRUCache.delete
  simp [hv]

theorem remove_item_of_lookup_some {V : Type} {sz : V → Nat} {s : LRUCache V} {key : String}
    {v : V} (hv : lookupKey s.cache key = some v) :
    LRUCache.remove_item sz s key =
      { s with
        cache := eraseKey s.cache key
        memory_usage := s.memory_usage - (sz v : Int)
        timeouts := eraseKey s.timeouts key } := by
  unfold LRUCache.remove_item
  rw [hv]

theorem deleteOnStore_fst (store : List (String × String)) (k : String) :
    (RedisCluster.deleteOnStore store k).1 =
      RedisCluster.delete (.ok ((store.filter (fun kv => decide (kv.1 = k))).length)) := rfl

theorem deleteOnStore_snd (store : List (String × String)) (k : String) :
    (RedisCluster.deleteOnStore store k).2 = store.filter (fun kv => decide (kv.1 ≠ k)) := rfl

theorem C9_delete_idempotent {V : Type} (sz : V → Nat) (s : LRUCache V) (k : String)
    (hnd : (keysOf s.cache).Nodup) :
    ((LRUCache.delete sz s k).1 =
        (lookupKey s.cache (LRUCache.get_versioned_key s k)).isSome) ∧
    (∀ v, lookupKey s.cache (LRUCache.get_versioned_key s k) = some v →
        (LRUCache.delete sz s k).2.memory_usage = s.memory_usage - (sz v : Int) ∧
        LRUCache.get_versioned_key s k ∉ keysOf (LRUCache.delete sz s k).2.cache) ∧
    ((LRUCache.delete sz (LRUCache.delete sz s k).2 k).1 = false ∧
      (LRUCache.delete sz (LRUCache.delete sz s k).2 k).2 = (LRUCache.delete sz s k).2) ∧
    (∀ store : List (String × String),
        (RedisCluster.deleteOnStore (RedisCluster.deleteOnStore store k).2 k).1 = false ∧
        (RedisCluster.deleteOnStore (RedisCluster.deleteOnStore store k).2 k).2 =
          (RedisCluster.deleteOnStore store k).2) := by
  refine ⟨?_, ?_, ?_, ?_⟩
  · cases hv : lookupKey s.cache (LRUCache.get_versioned_key s k) with
    | none => rw [delete_of_lookup_none hv]; rfl
    | some v => rw [delete_of_lookup_some hv]; rfl
  · intro v hv
    rw [delete_of_lookup_some hv, remove_item_of_lookup_some hv]
    exact ⟨rfl, not_mem_keysOf_eraseKey_self hnd⟩
  · cases hv : lookupKey s.cache (LRUCache.get_versioned_key s k) with
    | none => simp [delete_of_lookup_none hv]
    | some v =>
        rw [delete_of_lookup_some hv, remove_item_of_lookup_some hv]
        have h2 : lookupKey
            (eraseKey s.cache (LRUCache.get_versioned_key s k))
            (LRUCache.get_versioned_key s k) = none :=
          lookupKey_eq_none_iff.mpr (not_mem_keysOf_eraseKey_self hnd)
        rw [delete_of_lookup_none h2]
        exact ⟨rfl, rfl⟩
  · intro store
    simp only [deleteOnStore_fst, deleteOnStore_snd]
    constructor
    · have hnil : ((store.filter (fun kv => decide (kv.1 ≠ k))).filter
          (fun kv => decide (kv.1 = k))) = [] := by
        rw [List.filter_eq_nil_iff]
        intro kv hkv
        have h1 := (List.mem_filter.mp hkv).2
        simp only [decide_eq_true_eq] at h1 ⊢
        exact h1
      rw [hnil]
      rfl
    · rw [List.filter_eq_self]
      intro kv hkv
      exact (List.mem_filter.mp hkv).2

/-- Does an operation avoid re-inserting the key `k` (true for every
`get` and `force_eviction`; for `put`, the versioned key must differ)? -/
def OpOk {V : Type} (ver : Nat) (k : String) : CacheOp V → Prop
  | .opPut _ key _ _ => LRUCache.versionedKey ver key ≠ k
  | _ => True

instance {V : Type} (ver : Nat) (k : String) : ∀ op : CacheOp V, Decidable (OpOk ver k op)
  | .opGet _ _ => .isTrue trivial
  | .opPut _ key _ _ => inferInstanceAs (Decidable (LRUCache.versionedKey ver key ≠ k))
  | .opForce _ => .isTrue trivial

instance {V : Type} (s : LRUCache V) (k : String) : Decidable (Orphan s k) :=
  inferInstanceAs (Decidable (k ∈ keysOf s.timeouts ∧ k ∉ keysOf s.cache))

namespace LRUCache

variable {V : Type}

theorem remove_item_of_not_mem {sz : V → Nat} {s : LRUCache V} {k : String}
    (h : k ∉ keysOf s.cache) : remove_item sz s k = s := by
  unfold remove_item
  rw [lookupKey_eq_none_iff.mpr h]

theorem remove_item_orphan {sz : V → Nat} {s : LRUCache V} {k : String} (ho : Orphan s k)
    (k' : String) : Orphan (remove_item sz s k') k := by
  cases hl : lookupKey s.cache k' with
  | none =>
      unfold remove_item
      rw [hl]
      exact ho
  | some v =>
      rw [remove_item_of_lookup_some hl]
      have hmem : k' ∈ keysOf s.cache := by
        rw [← lookupKey_isSome_iff_mem, hl]
        rfl
      have hne : k ≠ k' := fun h => ho.2 (h ▸ hmem)
      exact ⟨mem_keysOf_eraseKey_of_ne hne ho.1, not_mem_keysOf_eraseKey ho.2⟩

theorem foldl_remove_item_orphan {sz : V → Nat} {k : String} (l : List String)
    {s : LRUCache V} (ho : Orphan s k) : Orphan (l.foldl (remove_item sz) s) k := by
  induction l generalizing s with
  | nil => exact ho
  | cons k' rest ih => exact ih (remove_item_orphan ho k')

theorem cleanup_expired_orphan {sz : V → Nat} {s : LRUCache V} {k : String} (ho : Orphan s k)
    (now : Nat) : Orphan (cleanup_expired sz s now) k :=
  foldl_remove_item_orphan _ ho

theorem get_of_lookup_none {sz : V → Nat} {s : LRUCache V} {now : Nat} {key : String}
    (h : lookupKey (cleanup_expired sz s now).cache
      (get_versioned_key (cleanup_expired sz s now) key) = none) :
    get sz s now key = (none, cleanup_expired sz s now) := by
  unfold get
  simp [h]

theorem get_of_expired {sz : V → Nat} {s : LRUCache V} {now : Nat} {key : String} {v : V}
    (h : lookupKey (cleanup_expired sz s now).cache
      (get_versioned_key (cleanup_expired sz s now) key) = some v)
    (he : is_expired (cleanup_expired sz s now) now
      (get_versioned_key (cleanup_expired sz s now) key) = true) :
    get sz s now key = (none, cleanup_expired sz s now) := by
  unfold get
  simp [h, he]

theorem get_of_hit {sz : V → Nat} {s : LRUCache V} {now : Nat} {key : String} {v : V}
    (h : lookupKey (cleanup_expired sz s now).cache
      (get_versioned_key (cleanup_expired sz s now) key) = some v)
    (he : is_expired (cleanup_expired sz s now) now
      (get_versioned_key (cleanup_expired sz s now) key) = false) :
    get sz s now key =
      (some v,
        { cleanup_expired sz s now with
          cache := eraseKey (cleanup_expired sz s now).cache
              (get_versioned_key (cleanup_expired sz s now) key) ++
            [(get_versioned_key (cleanup_expired sz s now) key, v)] }) := by
  unfold get
  simp [h, he]

theorem get_orphan {sz : V → Nat} {s : LRUCache V} {k : String} (ho : Orphan s k) (now : Nat)
    (key : String) : Orphan (get sz s now key).2 k := by
  have h1 : Orphan (cleanup_expired sz s now) k := cleanup_expired_orphan ho now
  cases hl : lookupKey (cleanup_expired sz s now).cache
      (get_versioned_key (cleanup_expired sz s now) key) with
  | none =>
      rw [get_of_lookup_none hl]
      exact h1
  | some v =>
      cases he : is_expired (cleanup_expired sz s now) now
          (get_versioned_key (cleanup_expired sz s now) key) with
      | true =>
          rw [get_of_expired hl he]
          exact h1
      | false =>
          rw [get_of_hit hl he]
          have hvkmem : get_versioned_key (cleanup_expired sz s now) key ∈
              keysOf (cleanup_expired sz s now).cache := by
            rw [← lookupKey_isSome_iff_mem, hl]
            rfl
          have hne : k ≠ get_versioned_key (cleanup_expired sz s now) key :=
            fun h => h1.2 (h ▸ hvkmem)
          refine ⟨h1.1, ?_⟩
          intro hc
          rw [keysOf_append] at hc
          rcases List.mem_append.mp hc with hc | hc
          · exact not_mem_keysOf_eraseKey h1.2 hc
          · simp only [keysOf, List.map_cons, List.map_nil, List.mem_singleton] at hc
            exact hne hc

theorem get_version (sz : V → Nat) (s : LRUCache V) (now : Nat) (key : String) :
    (get sz s now key).2.version = s.version := by
  cases hl : lookupKey (cleanup_expired sz s now).cache
      (get_versioned_key (cleanup_expired sz s now) key) with
  | none =>
      rw [get_of_lookup_none hl]
      exact cleanup_expired_version s now
  | some v =>
      cases he : is_expired (cleanup_expired sz s now) now
          (get_versioned_key (cleanup_expired sz s now) key) with
      | true =>
          rw [get_of_expired hl he]
          exact cleanup_expired_version s now
      | false =>
          rw [get_of_hit hl he]
          exact cleanup_expired_version s now

theorem forceLoop_orphan {sz : V → Nat} {k : String} (fuel : Nat) {s : LRUCache V}
    (ho : Orphan s k) : Orphan (forceLoop sz fuel s) k := by
  induction fuel generalizing s with
  | zero => exact ho
  | succ n ih =>
      unfold forceLoop
      cases hc : s.cache with
      | nil => exact ho
      | cons p rest =>
          obtain ⟨k0, v0⟩ := p
          show Orphan (if s.memory_usage > (s.max_memory : Int) then
            forceLoop sz n (remove_item sz s k0) else s) k
          by_cases hm : s.memory_usage > (s.max_memory : Int)
          · rw [if_pos hm]
            exact ih (remove_item_orphan ho k0)
          · rw [if_neg hm]
            exact ho

theorem forceLoop_version {sz : V → Nat} (fuel : Nat) (s : LRUCache V) :
    (forceLoop sz fuel s).version = s.version := by
  induction fuel generalizing s with
  | zero => rfl
  | succ n ih =>
      unfold forceLoop
      cases hc : s.cache with
      | nil => rfl
      | cons p rest =>
          obtain ⟨k0, v0⟩ := p
          show (if s.memory_usage > (s.max_memory : Int) then
            forceLoop sz n (remove_item sz s k0) else s).version = s.version
          by_cases hm : s.memory_usage > (s.max_memory : Int)
          · rw [if_pos hm, ih, remove_item_version]
          · rw [if_neg hm]

theorem force_eviction_orphan {sz : V → Nat} {s : LRUCache V} {k : String} (ho : Orphan s k)
    (now : Nat) : Orphan (force_eviction sz s now) k :=
  forceLoop_orphan _ (cleanup_expired_orphan ho now)

theorem force_eviction_version (sz : V → Nat) (s : LRUCache V) (now : Nat) :
    (force_eviction sz s now).version = s.version := by
  unfold force_eviction
  rw [forceLoop_version, cleanup_expired_version]

theorem put_orphan {sz : V → Nat} {s : LRUCache V} {k : String} (ho : Orphan s k)
    (now : Nat) (key : String) (value : V) (timeout : Option Nat)
    (hk : versionedKey s.version key ≠ k) :
    Orphan (put sz s now key value timeout) k := by
  have h1 : Orphan (cleanup_expired sz s now) k := cleanup_expired_orphan ho now
  have hvk : get_versioned_key (cleanup_expired sz s now) key = versionedKey s.version key := by
    unfold get_versioned_key
    rw [cleanup_expired_version]
  rw [put_eq, hvk]
  set s2 := if (lookupKey (cleanup_expired sz s now).cache
      (versionedKey s.version key)).isSome then
        remove_item sz (cleanup_expired sz s now) (versionedKey s.version key)
      else cleanup_expired sz s now with hs2
  have h2 : Orphan s2 k := by
    rw [hs2]
    by_cases hp : (lookupKey (cleanup_expired sz s now).cache
        (versionedKey s.version key)).isSome
    · simpa [hp] using remove_item_orphan h1 (versionedKey s.version key)
    · simpa [hp] using h1
  have hknotvk : k ≠ versionedKey s.version key := fun h => hk h.symm
  constructor
  · -- the orphaned key stays in the timeouts
    rcases putSetTimeout_timeouts (putInsert sz s2 (versionedKey s.version key) value) now
        (versionedKey s.version key) timeout with ht | ⟨t, ht⟩
    · rw [ht, putInsert_timeouts]
      exact h2.1
    · rw [ht, putInsert_timeouts]
      exact mem_keysOf_setKey_of_mem h2.1
  · -- and stays absent from the cache
    rw [putSetTimeout_cache, putInsert_cache]
    intro hc
    rcases mem_keysOf_setKey_iff.mp hc with hc | hc
    · have hsuffix := @evictLoop_suffix V sz s2.max_memory (sz value) s2.cache
        s2.memory_usage
      rcases hsuffix with ⟨t, htail⟩
      have : k ∈ keysOf s2.cache := by
        rw [← htail, keysOf_append]
        exact List.mem_append_right _ hc
      exact h2.2 this
    · exact hknotvk hc

theorem applyOp_orphan {sz : V → Nat} {s : LRUCache V} {k : String} (ho : Orphan s k)
    {op : CacheOp V} (hok : OpOk s.version k op) : Orphan (applyOp sz s op) k := by
  cases op with
  | opGet now key => exact get_orphan ho now key
  | opPut now key value timeout => exact put_orphan ho now key value timeout hok
  | opForce now => exact force_eviction_orphan ho now

theorem applyOp_version (sz : V → Nat) (s : LRUCache V) (op : CacheOp V) :
    (applyOp sz s op).version = s.version := by
  cases op with
  | opGet now key => exact get_version sz s now key
  | opPut now key value timeout => exact put_version s now key value timeout
  | opForce now => exact force_eviction_version sz s now

theorem applyOps_orphan {sz : V → Nat} {k : String} (ops : List (CacheOp V)) {s : LRUCache V}
    (ho : Orphan s k) (hops : ∀ op ∈ ops, OpOk s.version k op) :
    Orphan (applyOps sz s ops) k := by
  induction ops generalizing s with
  | nil => exact ho
  | cons op rest ih =>
      have h1 : Orphan (applyOp sz s op) k := applyOp_orphan ho (hops op (by simp))
      have hrest : ∀ o ∈ rest, OpOk (applyOp sz s op).version k o := by
        intro o hmem
        rw [applyOp_version]
        exact hops o (by simp [hmem])
      exact ih h1 hrest

end LRUCache

/-- C10 (confirmed): `put`'s eviction loop drops cache entries without
touching their expiration timestamps.  Concretely, two puts into a fresh
1 MB cache (estimated sizes 700000 each, default timeout 30) leave the
evicted key's timestamp orphaned in the expiry map; `_remove_item` is a
no-op for a key absent from the cache, so `_cleanup_expired` never drops
an orphaned timestamp; the orphan persists through every subsequent
`get`, `force_eviction`, and `put` whose versioned key differs from the
orphaned key; and `clear` / `update_version` do remove it. -/
theorem C10_orphaned_timeout_persists :
    Orphan (putSeq (fun n : Nat => n) (LRUCache.init Nat 1 1 30)
        [⟨0, "a", 700000, none⟩, ⟨1, "b", 700000, none⟩]) "v1:a" ∧
    (∀ (V : Type) (sz : V → Nat) (s : LRUCache V) (k : String),
        k ∉ keysOf s.cache → LRUCache.remove_item sz s k = s) ∧
    (∀ (V : Type) (sz : V → Nat) (s : LRUCache V) (k : String) (now : Nat),
        Orphan s k → Orphan (LRUCache.cleanup_expired sz s now) k) ∧
    (∀ (V : Type) (sz : V → Nat) (s : LRUCache V) (k : String) (ops : List (CacheOp V)),
        Orphan s k → (∀ op ∈ ops, OpOk s.version k op) →
        Orphan (applyOps sz s ops) k) ∧
    (∀ (V : Type) (s : LRUCache V) (k : String) (v2 : Nat),
        k ∉ keysOf (LRUCache.clear s).timeouts ∧
          k ∉ keysOf (LRUCache.update_version s v2).timeouts) := by
  refine ⟨by decide, ?_, ?_, ?_, ?_⟩
  · intro V sz s k h
    exact LRUCache.remove_item_of_not_mem h
  · intro V sz s k now ho
    exact LRUCache.cleanup_expired_orphan ho now
  · intro V sz s k ops ho hops
    exact LRUCache.applyOps_orphan ops ho hops
  · intro V s k v2
    constructor <;> simp [LRUCache.clear, LRUCache.update_version, keysOf]

/-- C10 witness: the persistence part applied to the concrete orphaned
state, across a `get`, a `put` of a different key, and a
`force_eviction`. -/
theorem C10_witness :
    Orphan
      (applyOps (fun n : Nat => n)
        (putSeq (fun n : Nat => n) (LRUCache.init Nat 1 1 30)
          [⟨0, "a", 700000, none⟩, ⟨1, "b", 700000, none⟩])
        [.opGet 2 "b", .opPut 3 "c" 5 (some 7), .opForce 4])
      "v1:a" := by
  have h := C10_orphaned_timeout_persists
  exact h.2.2.2.1 Nat (fun n : Nat => n)
    (putSeq (fun n : Nat => n) (LRUCache.init Nat 1 1 30)
      [⟨0, "a", 700000, none⟩, ⟨1, "b", 700000, none⟩])
    "v1:a" [.opGet 2 "b", .opPut 3 "c" 5 (some 7), .opForce 4] h.1 (by decide)

/-- C9 witness: the theorem at a concrete one-entry cache and a concrete
one-entry store. -/
theorem C9_witness :
    (LRUCache.delete (fun n : Nat => n)
        (⟨100, [("v1:a", 3)], 3, 1, 0, []⟩ : LRUCache Nat) "a").1 = true ∧
      (LRUCache.delete (fun n : Nat => n)
        (⟨100, [("v1:a", 3)], 3, 1, 0, []⟩ : LRUCache Nat) "a").2.memory_usage = 3 - 3 ∧
      (LRUCache.delete (fun n : Nat => n)
        (LRUCache.delete (fun n : Nat => n)
          (⟨100, [("v1:a", 3)], 3, 1, 0, []⟩ : LRUCache Nat) "a").2 "a").1 = false ∧
      (RedisCluster.deleteOnStore
        (RedisCluster.deleteOnStore [("a", "x")] "a").2 "a").1 = false := by
  have h := C9_delete_idempotent (fun n : Nat => n)
    (⟨100, [("v1:a", 3)], 3, 1, 0, []⟩ : LRUCache Nat) "a" (by decide)
  refine ⟨?_, (h.2.1 3 (by decide)).1, h.2.2.1.1, (h.2.2.2 [("a", "x")]).1⟩
  rw [h.1]
  decide

/-- C7 (confirmed): on a transient remote I/O error (`RedisError`)
raised by the underlying client, `RedisCluster.get` returns absent,
`RedisCluster.set` and `RedisCluster.delete` return `false`; all three
wrappers are total functions into plain values, so no exception reaches
the caller. -/
theorem C7_transient_errors_absorbed :
    ∀ e : RedisErr,
      RedisCluster.get (.error e) = none ∧
        RedisCluster.set (.error e) = false ∧
        RedisCluster.delete (.error e) = false :=
  fun _ => ⟨rfl, rfl, rfl⟩

/-- C6 (amended): whenever the remote reports cluster mode disabled (or
replies falsy) or the introspection query raises `RedisError`,
`get_slot_distribution` returns the fixed standalone descriptor — with
the node count under the key `nodes`, not `node_count` as the claim
writes it — and the fallback is a constant, so it is deterministic and
side-effect-free. -/
theorem C6_standalone_fallback :
    (∀ e : RedisErr,
        get_slot_distribution (.error e) =
          [("total_slots", (16384 : ℚ)), ("nodes", 1), ("slots_per_node", 16384)]) ∧
    (∀ info : List (String × String),
        info = [] ∨ lookupKeyD info "cluster_enabled" "0" ≠ "1" →
        get_slot_distribution (.ok info) =
          [("total_slots", (16384 : ℚ)), ("nodes", 1), ("slots_per_node", 16384)]) := by
  constructor
  · intro e
    rfl
  · intro info h
    have hcond : ¬ (info ≠ [] ∧ lookupKeyD info "cluster_enabled" "0" = "1") := by
      rintro ⟨h1, h2⟩
      rcases h with h | h
      · exact h1 h
      · exact h h2
    simp only [get_slot_distribution]
    rw [if_neg hcond]

/-- C6 counterexample: against a store reporting `cluster_enabled = "0"`
the code returns the descriptor keyed `total_slots` / `nodes` /
`slots_per_node` — not "exactly
`{total_slots: 16384, node_count: 1, slots_per_node: 16384}`" as the
claim states: there is no `node_count` key. -/
theorem C6_counterexample :
    get_slot_distribution (.ok [("cluster_enabled", "0")]) ≠ specStandaloneDescriptor ∧
      get_slot_distribution (.ok [("cluster_enabled", "0")]) =
        [("total_slots", (16384 : ℚ)), ("nodes", 1), ("slots_per_node", 16384)] := by
  constructor
  · intro h
    have h2 : (("nodes", (1 : ℚ)) : String × ℚ) ∈ specStandaloneDescriptor := by
      rw [← h]
      decide
    revert h2
    decide
  · rfl

/-- C6 witness: the amended theorem applied to the error outcome and to a
concrete cluster-disabled reply. -/
theorem C6_witness :
    get_slot_distribution (.error RedisErr.timeout) =
        [("total_slots", (16384 : ℚ)), ("nodes", 1), ("slots_per_node", 16384)] ∧
      get_slot_distribution (.ok [("cluster_enabled", "0")]) =
        [("total_slots", (16384 : ℚ)), ("nodes", 1), ("slots_per_node", 16384)] := by
  exact ⟨C6_standalone_fallback.1 RedisErr.timeout,
    C6_standalone_fallback.2 [("cluster_enabled", "0")] (Or.inr (by decide))⟩

/-- A fixed 64-hex-character digest standing in for
`hashlib.sha256("p".encode()).hexdigest()` in the C5 evaluation (the
pattern mismatch only needs the digest to differ from the project id). -/
def c5Hash : String → String :=
  fun _ => "9f86d081884c7d659a2feaa0c55ad015a3bf4f1b2b0b822cd15d6c15b0f00a08"

/-- C5 (code bug): the put path stores project results under
`analysis_v2:{project_id}:{sha256_hex(project_path)}`, but
`invalidar_projeto` deletes keys matching
`analysis_v2:*:{project_id}` — the project id is required as the *last*
segment while the put path places it in the middle — so namespace
invalidation matches none of the keys the put path creates: on a store
holding exactly the key created for project "42", it deletes nothing and
returns no keys. -/
theorem C5_invalidation_pattern_misses_created_keys :
    globMatchStr ("analysis_v" ++ toString CACHE_VERSION ++ ":*:" ++ "42")
        (get_cache_key c5Hash "p" (some "42")) = false ∧
      invalidar_projeto [(get_cache_key c5Hash "p" (some "42"), "payload")] "42" =
        ([], [(get_cache_key c5Hash "p" (some "42"), "payload")]) := by
  constructor
  · decide
  · decide

/-- Concrete access-order index with 15 tracked keys (scores 1..15), for
the C4 counterexample. -/
def c4Index : List (String × Nat) :=
  [("k01", 1), ("k02", 2), ("k03", 3), ("k04", 4), ("k05", 5), ("k06", 6), ("k07", 7),
    ("k08", 8), ("k09", 9), ("k10", 10), ("k11", 11), ("k12", 12), ("k13", 13), ("k14", 14),
    ("k15", 15)]

/-- The matching remote store for the C4 counterexample. -/
def c4Store : List (String × String) := c4Index.map (fun p => (p.1, "v"))

/-- The C4 counterexample state. -/
def c4State : RemoteState := ⟨c4Store, c4Index⟩

/-- C4 counterexample: with `N = 15` tracked keys and usage above the
ceiling, `evict_oldest` deletes `int(0.1 * 15) = 1` key (truncation,
i.e. floor), not `max(1, ceil(0.1 * 15)) = 2` as the claim states. -/
theorem C4_counterexample :
    c4State.index.length = 15 ∧
      (evict_oldest c4State 100 50).index.length = 14 ∧
      15 - (evict_oldest c4State 100 50).index.length ≠ max 1 ((15 + 9) / 10) := by
  refine ⟨rfl, ?_, ?_⟩ <;> decide

/-- Filtering out the keys of the first block of a key-unique
association list leaves exactly the second block. -/
theorem filter_not_mem_keys_split {β : Type} (l₁ l₂ : List (String × β))
    (hknd : (keysOf (l₁ ++ l₂)).Nodup) :
    (l₁ ++ l₂).filter (fun kv => decide (kv.1 ∉ l₁.map Prod.fst)) = l₂ := by
  rw [List.filter_append]
  have htake : l₁.filter (fun kv => decide (kv.1 ∉ l₁.map Prod.fst)) = [] := by
    rw [List.filter_eq_nil_iff]
    intro x hx
    simp only [decide_eq_true_eq, not_not]
    exact List.mem_map_of_mem Prod.fst hx
  have hdrop : l₂.filter (fun kv => decide (kv.1 ∉ l₁.map Prod.fst)) = l₂ := by
    rw [List.filter_eq_self]
    intro x hx
    simp only [decide_eq_true_eq]
    intro hmem
    rw [keysOf_append, List.nodup_append] at hknd
    exact hknd.2.2 hmem (List.mem_map_of_mem Prod.fst hx)
  rw [htake, hdrop, List.nil_append]

/-- C4 (amended): with `N ≥ 1` distinct tracked keys and remote usage at
or above the ceiling, `evict_oldest` removes exactly
`max(1, floor(0.1 * N))` keys — truncation, not the ceiling the original
claim states — they are lowest-scored keys of the access index (every
survivor's score is at least every victim's score), each victim
disappears from both the store and the index, and below the ceiling
`evict_oldest` is a no-op. -/
theorem C4_fractional_lru_eviction (st : RemoteState) (used mx N : Nat)
    (hN : st.index.length = N) (hpos : 1 ≤ N) (hnd : (keysOf st.index).Nodup)
    (husage : mx ≤ used) :
    (∀ u, u < mx → evict_oldest st u mx = st) ∧
    (((sortIndex st.index).take (max 1 (N / 10))).map Prod.fst).length = max 1 (N / 10) ∧
    (evict_oldest st used mx).index.length = N - max 1 (N / 10) ∧
    (∀ key ∈ ((sortIndex st.index).take (max 1 (N / 10))).map Prod.fst,
        key ∉ keysOf (evict_oldest st used mx).index ∧
          key ∉ keysOf (evict_oldest st used mx).store) ∧
    (∀ e ∈ (evict_oldest st used mx).index,
        ∀ x ∈ (sortIndex st.index).take (max 1 (N / 10)), x.2 ≤ e.2) := by
  have hsortperm : List.Perm (sortIndex st.index) st.index :=
    List.perm_insertionSort indexLE st.index
  have hlen_sort : (sortIndex st.index).length = N := by
    rw [hsortperm.length_eq, hN]
  have hn_le : max 1 (N / 10) ≤ N := max_le hpos (Nat.div_le_self N 10)
  have hvlen : (((sortIndex st.index).take (max 1 (N / 10))).map Prod.fst).length =
      max 1 (N / 10) := by
    rw [List.length_map, List.length_take, hlen_sort, Nat.min_eq_left hn_le]
  have hvne : ((sortIndex st.index).take (max 1 (N / 10))).map Prod.fst ≠ [] := by
    intro h
    rw [h] at hvlen
    simp at hvlen
    omega
  have hnum : (if st.index.length / 10 < 1 then 1 else st.index.length / 10) =
      max 1 (N / 10) := by
    rw [hN]
    rcases Nat.eq_zero_or_pos (N / 10) with h | h
    · rw [h]
      simp
    · rw [if_neg (by omega)]
      exact (Nat.max_eq_right h).symm
  have hevict : evict_oldest st used mx =
      ⟨st.store.filter (fun kv =>
          decide (kv.1 ∉ ((sortIndex st.index).take (max 1 (N / 10))).map Prod.fst)),
        st.index.filter (fun kv =>
          decide (kv.1 ∉ ((sortIndex st.index).take (max 1 (N / 10))).map Prod.fst))⟩ := by
    unfold evict_oldest
    rw [if_neg (Nat.not_lt.mpr husage)]
    simp only [hnum]
    rw [if_neg hvne]
  -- the surviving index entries are exactly (a permutation of) the sorted
  -- index minus its first `max 1 (N / 10)` entries
  have hknd : (keysOf (sortIndex st.index)).Nodup := by
    have := hsortperm.map Prod.fst
    exact this.nodup_iff.mpr hnd
  have hfiltersorted : (sortIndex st.index).filter (fun kv =>
      decide (kv.1 ∉ ((sortIndex st.index).take (max 1 (N / 10))).map Prod.fst)) =
      (sortIndex st.index).drop (max 1 (N / 10)) := by
    have hsplit := filter_not_mem_keys_split
      ((sortIndex st.index).take (max 1 (N / 10)))
      ((sortIndex st.index).drop (max 1 (N / 10)))
      (by rw [List.take_append_drop]; exact hknd)
    rw [List.take_append_drop] at hsplit
    exact hsplit
  have hperm : List.Perm
      (st.index.filter (fun kv =>
        decide (kv.1 ∉ ((sortIndex st.index).take (max 1 (N / 10))).map Prod.fst)))
      ((sortIndex st.index).drop (max 1 (N / 10))) := by
    have h1 := hsortperm.filter (fun kv =>
      decide (kv.1 ∉ ((sortIndex st.index).take (max 1 (N / 10))).map Prod.fst))
    rw [hfiltersorted] at h1
    exact h1.symm
  refine ⟨?_, hvlen, ?_, ?_, ?_⟩
  · intro u hu
    unfold evict_oldest
    rw [if_pos hu]
  · rw [hevict]
    show (st.index.filter _).length = N - max 1 (N / 10)
    rw [hperm.length_eq, List.length_drop, hlen_sort]
  · intro key hkey
    constructor <;>
      · rw [hevict]
        intro hc
        obtain ⟨v, hv⟩ := mem_keysOf_iff.mp hc
        have h1 := (List.mem_filter.mp hv).2
        simp only [decide_eq_true_eq] at h1
        exact h1 hkey
  · intro e he x hx
    rw [hevict] at he
    have he2 : e ∈ (sortIndex st.index).drop (max 1 (N / 10)) := hperm.mem_iff.mp he
    have hsorted : List.Pairwise indexLE ((sortIndex st.index).take (max 1 (N / 10)) ++
        (sortIndex st.index).drop (max 1 (N / 10))) := by
      rw [List.take_append_drop]
      exact List.sorted_insertionSort indexLE st.index
    exact (List.pairwise_append.mp hsorted).2.2 x hx e he2

/-- C4 witness: the amended theorem at the concrete 15-key state. -/
theorem C4_witness :
    (evict_oldest c4State 100 50).index.length = 15 - max 1 (15 / 10) ∧
      (∀ key ∈ ((sortIndex c4State.index).take (max 1 (15 / 10))).map Prod.fst,
          key ∉ keysOf (evict_oldest c4State 100 50).index ∧
            key ∉ keysOf (evict_oldest c4State 100 50).store) ∧
      evict_oldest c4State 49 50 = c4State := by
  have h := C4_fractional_lru_eviction c4State 100 50 15 (by decide) (by decide) (by decide)
    (by decide)
  exact ⟨h.2.2.1, h.2.2.2.1, h.1 49 (by decide)⟩

end Refactool
